import Mathlib

/-!
Verification development for the pdf-utils repository.

The development shallowly embeds the geometry engine (`pdf_utils/rectangle.py`),
the native-annotation extractor (`kx_pdf_tools/annotation.py`, whose box
construction `_create_annotations_bounding_box` coincides with
`pdf_tools/annotation.py`'s `_create_rectangle`) and the word-matching /
flow-resolution pipeline (`pdf_utils/annotated_pdf.py`).

Conventions of the embedding:
* Python floats are modelled as exact rationals (`ℚ`); every arithmetic step of
  the source maps to the corresponding exact operation.
* A Python expression that can raise (`ZeroDivisionError` on `x / y` with
  `y == 0`, a failed `assert`, an unresolvable `getparent` chain, an
  out-of-range index) is modelled with `Option`: `none` is the raising run,
  `some v` the run returning `v`.
* `lxml` html elements compare by object identity; an element is modelled as a
  value carrying a numeric identity (`wid`), and documents are considered
  well-formed when all word elements are pairwise distinct, so that value
  equality coincides with identity.
-/

namespace PdfUtils

/-- `Rectangle` from `pdf_utils/rectangle.py`: the four coordinates stored by
`__init__` (in the order `x_min, y_min, x_max, y_max`).  Construction never
fails; a swapped pair of bounds only logs a warning, so no invariant is baked
into the structure. -/
structure Rectangle where
  x_min : ℚ
  y_min : ℚ
  x_max : ℚ
  y_max : ℚ
deriving DecidableEq, Repr

/-- `Rectangle.width`: `x_max - x_min`. -/
def Rectangle.width (r : Rectangle) : ℚ := r.x_max - r.x_min

/-- `Rectangle.height`: `y_max - y_min`. -/
def Rectangle.height (r : Rectangle) : ℚ := r.y_max - r.y_min

/-- `Rectangle.area`: `width * height`. -/
def Rectangle.area (r : Rectangle) : ℚ := r.width * r.height

/-- `Rectangle.contains_other`: the other rectangle is a sub-rectangle of this
one (non-strict inequalities on both axes). -/
def Rectangle.contains_other (self other : Rectangle) : Bool :=
  other.x_min ≥ self.x_min && other.x_max ≤ self.x_max &&
    (other.y_min ≥ self.y_min && other.y_max ≤ self.y_max)

/-- `Rectangle.rescale`: multiplies horizontal and vertical ranges by
constants. -/
def Rectangle.rescale (self : Rectangle) (multiply_width_by multiply_height_by : ℚ) : Rectangle :=
  { x_min := self.x_min * multiply_width_by
    y_min := self.y_min * multiply_height_by
    x_max := self.x_max * multiply_width_by
    y_max := self.y_max * multiply_height_by }

/-- Python's `int(x)` conversion of a float truncates toward zero; on an exact
rational value this is the T-rounding quotient of numerator by denominator. -/
def pyint (q : ℚ) : ℤ := Int.tdiv q.num q.den

/-- Truncation toward zero as the spec describes it: floor of a nonnegative
value, ceiling of a negative one (so `1.9 ↦ 1` and `-0.5 ↦ 0`, never rounding
to the nearest integer).  This is the spec-side counterpart of `pyint`. -/
def truncTowardZero (q : ℚ) : ℤ := if 0 ≤ q then ⌊q⌋ else ⌈q⌉

/-- `Rectangle.to_int`: re-creates the rectangle with `dtype=int`, i.e. passes
every coordinate through Python's `int(...)` conversion. -/
def Rectangle.to_int (r : Rectangle) : Rectangle :=
  { x_min := (pyint r.x_min : ℚ)
    y_min := (pyint r.y_min : ℚ)
    x_max := (pyint r.x_max : ℚ)
    y_max := (pyint r.y_max : ℚ) }

/-- `Rectangle.intersection`: clamp each axis to the overlap; `None` when the
candidate ranges are empty (`x_min > x_max or y_min > y_max`). -/
def Rectangle.intersection (self other : Rectangle) : Option Rectangle :=
  let x_min := max self.x_min other.x_min
  let y_min := max self.y_min other.y_min
  let x_max := min self.x_max other.x_max
  let y_max := min self.y_max other.y_max
  if x_min > x_max ∨ y_min > y_max then none
  else some { x_min := x_min, y_min := y_min, x_max := x_max, y_max := y_max }

/-- `Rectangle.get_iou`: `inter.area / (self.area + rect.area - inter.area)`
when the intersection is non-`None`, else `0`.  The Python division raises
`ZeroDivisionError` when the denominator is `0`; that run is `none`. -/
def Rectangle.get_iou (self rect : Rectangle) : Option ℚ :=
  match self.intersection rect with
  | none => some 0
  | some inter =>
      let denom := self.area + rect.area - inter.area
      if denom = 0 then none else some (inter.area / denom)

/-- `Rectangle.smallest_common_superrectangle`: per-axis min/max hull. -/
def Rectangle.smallest_common_superrectangle (self other : Rectangle) : Rectangle :=
  { x_min := min self.x_min other.x_min
    y_min := min self.y_min other.y_min
    x_max := max self.x_max other.x_max
    y_max := max self.y_max other.y_max }

/-- The loop body of `Rectangle.normalize_list_of_rectangles`: walk the tail
`rectangles[1:]`, replacing in place every entry whose IoU with `first` is
nonzero by its smallest common superrectangle with `first`, and record in the
flag whether any replacement happened.  `none` propagates a
`ZeroDivisionError` raised by `get_iou`. -/
def mergeFirstPass (first : Rectangle) : List Rectangle → Option (List Rectangle × Bool)
  | [] => some ([], false)
  | r :: rs =>
      (first.get_iou r).bind (fun iou =>
        (mergeFirstPass first rs).map (fun rb =>
          if iou ≠ 0 then (r.smallest_common_superrectangle first :: rb.1, true)
          else (r :: rb.1, rb.2)))

/-- Recursion scheme of `Rectangle.normalize_list_of_rectangles`: the Python
function recurses on `rectangles[1:]` after the in-place merge pass, so each
call strictly shrinks the list; the structural `fuel` argument, initialized to
the list length, makes that measure explicit (`normalizeAux_fuel_irrelevant`
shows any fuel of at least the list length computes the same value).  Lists
shorter than 2 are returned as they are; otherwise the tail is rewritten by
the merge pass, the rewritten tail is normalized recursively, and `first` is
kept only when it merged with nothing. -/
def normalizeAux : ℕ → List Rectangle → Option (List Rectangle)
  | _, [] => some []
  | _, [r] => some [r]
  | 0, _ => none
  | fuel + 1, first :: rest =>
      (mergeFirstPass first rest).bind (fun mb =>
        (normalizeAux fuel mb.1).map (fun rest_normalized =>
          if mb.2 then rest_normalized else first :: rest_normalized))

/-- `Rectangle.normalize_list_of_rectangles` (return value). -/
def normalize_list_of_rectangles (rectangles : List Rectangle) : Option (List Rectangle) :=
  normalizeAux rectangles.length rectangles

/-- Final contents of the caller's `rectangles` list after a top-level call of
`normalize_list_of_rectangles`: the loop assigns `rectangles[i] = ...` in
place, while the recursive call receives the slice copy `rectangles[1:]`, so
only the top-level merge pass is visible to the caller.  `none` stands for a
run whose top-level loop raises (leaving a partially rewritten list). -/
def normalize_arg_after (rectangles : List Rectangle) : Option (List Rectangle) :=
  match rectangles with
  | [] => some []
  | [r] => some [r]
  | first :: rest => (mergeFirstPass first rest).map (fun p => first :: p.1)

/-! ### Annotation model and extractor -/

/-- `AnnotationExtractor._create_annotations_bounding_box` from
`kx_pdf_tools/annotation.py` (identical to `_create_rectangle` in
`pdf_tools/annotation.py`): the native `/Rect` entries `(b0, b1, b2, b3)` are
`(x_min, y_min, x_max, y_max)` with the vertical axis increasing from the page
bottom; with `from_above = true` (the default used by the extractor) the
vertical coordinates are renormalized against the page height. -/
def create_annotations_bounding_box (b0 b1 b2 b3 : ℚ) (page_height : ℚ)
    (from_above : Bool) : Rectangle :=
  { x_min := b0
    y_min := if from_above then page_height - b3 else b1
    x_max := b2
    y_max := if from_above then page_height - b1 else b3 }

/-- `Annotation` data class from the repository: page index, type string
(already lower-cased and admissibility-checked by `__init__`), bounding box in
top-left-origin coordinates, and the optional payload fields. -/
structure Annotation where
  page : ℕ
  type : String
  box : Rectangle
  text_content : Option String
  who_annotated : Option String
  label : Option ℤ
deriving DecidableEq, Repr

/-! ### Word-annotation matcher (`pdf_utils/annotated_pdf.py`) -/

/-- `AnnotatedPdf._match_words_threshold` (the primary tier). -/
def match_words_threshold : ℚ := 0.4

/-- `AnnotatedPdf._match_words_minimal_threshold` (the fallback tier). -/
def match_words_minimal_threshold : ℚ := 0.2

/-- `AnnotatedPdf._enrich_annotation_types`. -/
def enrich_annotation_types : List String := ["rectangle"]

/-- `AnnotatedPdf.minimal_words_in_document`. -/
def minimal_words_in_document : ℕ := 10

/-- One `word` html element of the poppler `pdftotext -bbox-layout` output:
its object identity (`wid`), its `.text` and the bounding box read off its
`xmin/ymin/xmax/ymax` attributes by `Pdf.get_bounding_box_of_elem`. -/
structure WordElem where
  wid : ℕ
  text : String
  box : Rectangle
deriving DecidableEq, Repr

/-- The score computed inline in `AnnotatedPdf._get_scored_words`: `0` when
word box and annotation box do not intersect, else
`intersection.area / word_box.area` (a `ZeroDivisionError`, i.e. `none`, when
the word box has zero area). -/
def word_score (word_box annot_box : Rectangle) : Option ℚ :=
  match word_box.intersection annot_box with
  | none => some 0
  | some inter => if word_box.area = 0 then none else some (inter.area / word_box.area)

/-- `AnnotatedPdf._get_scored_words`: keep, in page order, every word whose
score strictly exceeds the threshold, paired with its score. -/
def get_scored_words (words_in_page : List WordElem) (annot : Annotation) (threshold : ℚ) :
    Option (List (WordElem × ℚ)) :=
  match words_in_page with
  | [] => some []
  | w :: ws =>
      (word_score w.box annot.box).bind (fun score =>
        (get_scored_words ws annot threshold).map (fun rest =>
          if score > threshold then (w, score) :: rest else rest))

/-- Python's `max(words, key=itemgetter("score"))`: the first element whose
score is maximal (`max` replaces the current best only on a strictly greater
key); `none` on an empty list (the caller guards this). -/
def max_by_score : List (WordElem × ℚ) → Option (WordElem × ℚ)
  | [] => none
  | x :: xs => some (xs.foldl (fun best y => if y.2 > best.2 then y else best) x)

/-- `AnnotatedPdf._find_words_related_to_one_annotation`: primary-tier scoring
first; when it selects nothing, rescore with the minimal threshold and return
only the highest-scoring word; when that selects nothing either, return the
empty match. -/
def find_words_related_to_one_annotation (annot : Annotation)
    (words_in_page : List WordElem) : Option (List (WordElem × ℚ)) :=
  (get_scored_words words_in_page annot match_words_threshold).bind (fun words =>
    if words ≠ [] then some words
    else
      (get_scored_words words_in_page annot match_words_minimal_threshold).map (fun words2 =>
        match max_by_score words2 with
        | some best => [best]
        | none => []))

/-! ### The html word hierarchy (`pages > flows > blocks > lines > words`) -/

/-- A `line` element: its `word` children in document order. -/
structure LineH where
  words : List WordElem
deriving DecidableEq, Repr

/-- A `block` element: its `line` children in document order. -/
structure BlockH where
  lines : List LineH
deriving DecidableEq, Repr

/-- A `flow` element: its `block` children in document order. -/
structure FlowH where
  blocks : List BlockH
deriving DecidableEq, Repr

/-- A `page` element: its `flow` children in document order. -/
structure PageH where
  flows : List FlowH
deriving DecidableEq, Repr

/-- The whole document as the list of its parsed pages
(`AnnotatedPdf._pages_as_html`). -/
structure DocH where
  pages : List PageH
deriving DecidableEq, Repr

/-- `flow.findall(".//word")`: all word descendants of a flow in document
order. -/
def FlowH.wordsIn (f : FlowH) : List WordElem :=
  ((f.blocks.map BlockH.lines).flatten.map LineH.words).flatten

/-- `page.findall(".//word")`: all word descendants of a page in document
order (what `Pdf.get_pages` lists per page). -/
def PageH.wordsIn (p : PageH) : List WordElem :=
  (p.flows.map FlowH.wordsIn).flatten

/-- `AnnotatedPdf._flows_as_html`: all flows of all pages, page by page; the
index of a flow in this list is its id in `AnnotatedPdf._flow_to_id`. -/
def DocH.flowsList (d : DocH) : List FlowH :=
  (d.pages.map PageH.flows).flatten

/-- Index of the first list element satisfying the predicate, `none` when
there is none. -/
def findIdxOpt {α : Type} (p : α → Bool) : List α → Option ℕ
  | [] => none
  | a :: as => if p a then some 0 else (findIdxOpt p as).map (fun i => i + 1)

/-- A `[f x for x in l]` comprehension over fallible `f`: the whole run raises
(`none`) as soon as one element does. -/
def traverseOption {α β : Type} (f : α → Option β) : List α → Option (List β)
  | [] => some []
  | a :: as => (f a).bind (fun b => (traverseOption f as).map (fun bs => b :: bs))

/-- `word.getparent().getparent().getparent()`: the flow a word element lives
in, identified by its id.  Under the well-formedness assumption (all word
elements of a document pairwise distinct) membership determines the ancestry
uniquely, so the three-level parent walk is modelled as the first flow whose
word descendants contain the element. -/
def flowIndexOfWord (d : DocH) (w : WordElem) : Option ℕ :=
  findIdxOpt (fun f => decide (w ∈ f.wordsIn)) d.flowsList

/-- The dictionary returned by `AnnotatedPdf._get_neighborhood_of_words`:
the ancestor flow (by id), the texts of all its words, and the indices of the
annotated words within it. -/
structure FlowNbhd where
  flow : ℕ
  words : List String
  indices : List ℕ
deriving DecidableEq, Repr

/-- `AnnotatedPdf._get_neighborhood_of_words`.  The outer `Option` is the
raising run (`assert words` on an empty input, or a word whose parent chain
does not reach a flow of the document); the inner `Option` is the `None`
returned, with a warning, when the words span more than one distinct flow.
Otherwise the flow's words are enumerated in document order and the index of
every enumerated word that is a member of the input is collected; the
contiguity check that follows only logs a warning and never changes the
returned value (its `min`/`max` cannot raise because the collected index list
is never empty there). -/
def get_neighborhood_of_words (d : DocH) (words : List WordElem) :
    Option (Option FlowNbhd) :=
  if words = [] then none
  else
    (traverseOption (flowIndexOfWord d) words).bind (fun parents =>
      if parents.dedup.length ≠ 1 then some none
      else
        match parents with
        | [] => none
        | p :: _ =>
            match d.flowsList.get? p with
            | none => none
            | some ancestor =>
                let fw := ancestor.wordsIn
                some (some
                  { flow := p
                    words := fw.map WordElem.text
                    indices := (List.range fw.length).filter
                      (fun i => (fw.get? i).elim false (fun w => decide (w ∈ words))) }))

/-! ### Flow aggregator (`AnnotatedPdf.get_flows_with_annotations`) -/

/-- One value of the dictionary built by `AnnotatedPdf._initialize_flows` and
filled by `get_flows_with_annotations`: the flow's word texts, its page index,
and the `defaultdict(list)` from description strings to word indices. -/
structure FlowRecord where
  words : List String
  page : ℕ
  annotated_indices : List (String × List ℕ)
deriving DecidableEq, Repr

/-- Every flow paired with the index of the page containing it
(`AnnotatedPdf._page_to_page_idx[flow.getparent()]`), in flow-id order. -/
def flowsWithPages (d : DocH) : List (FlowH × ℕ) :=
  (d.pages.enum.map (fun pip => pip.2.flows.map (fun f => (f, pip.1)))).flatten

/-- `AnnotatedPdf._initialize_flows`: one record per flow, in flow-id order,
with words and page filled in and no annotated indices yet. -/
def initialize_flows (d : DocH) : List FlowRecord :=
  (flowsWithPages d).map (fun fp =>
    { words := fp.1.wordsIn.map WordElem.text, page := fp.2, annotated_indices := [] })

/-- `annotated_indices[description] += indices` on a `defaultdict(list)`:
extend the entry when the key exists, else create it holding the new
indices. -/
def appendIndices (m : List (String × List ℕ)) (k : String) (v : List ℕ) :
    List (String × List ℕ) :=
  if m.any (fun p => p.1 = k) then
    m.map (fun p => if p.1 = k then (p.1, p.2 ++ v) else p)
  else m ++ [(k, v)]

/-- The in-memory state of one `AnnotatedPdf`: its parsed html pages and the
raw annotations the extractor produced for it. -/
structure AnnotatedPdf where
  doc : DocH
  raw_annotations : List Annotation
deriving Repr

/-- `AnnotatedPdf._match_annotations_with_words` (the backend of
`enriched_annotations`): for every raw annotation whose type is enriched,
pair the annotation with the words matched on its page.  `none` is a raising
run (annotation page out of range, or a zero-area word intersecting the
annotation box). -/
def match_annotations_with_words (pdf : AnnotatedPdf) :
    Option (List ( Annotation × List (WordElem × ℚ))) :=
  traverseOption
    (fun a =>
      match pdf.doc.pages.get? a.page with
      | none => none
      | some pg =>
          let matched := find_words_related_to_one_annotation a pg.wordsIn
          matched.map (fun ws => (a, ws)))
    (pdf.raw_annotations.filter (fun a => decide (a.type ∈ enrich_annotation_types)))

/-- `sum(len(v) for v in self.get_pages().values())`: the total number of word
elements over all pages of the document. -/
def totalWords (d : DocH) : ℕ :=
  (d.pages.map (fun pg => pg.wordsIn.length)).sum

/-- The body of the `for annot in self.enriched_annotations` loop of
`get_flows_with_annotations`: skip annotations with no matched words, resolve
the neighborhood (skipping, with a warning, when it is `None`), skip an empty
or missing `text_content`, and otherwise extend
`annotated_indices[transform(text_content)]` of the flow's record with the
neighborhood's indices. -/
def add_annot_to_flows (d : DocH) (transform : String → String)
    (flows : List FlowRecord) (ea : Annotation × List (WordElem × ℚ)) :
    Option (List FlowRecord) :=
  if ea.2 = [] then some flows
  else
    let ws := ea.2.map Prod.fst
    match get_neighborhood_of_words d ws with
    | none => none
    | some none => some flows
    | some (some nb) =>
        match ea.1.text_content with
        | none => some flows
        | some tc =>
            if tc = "" then some flows
            else
              match flows.get? nb.flow with
              | none => none
              | some fr =>
                  some (flows.set nb.flow
                    { fr with annotated_indices :=
                        appendIndices fr.annotated_indices (transform tc) nb.indices })

/-- `AnnotatedPdf.get_flows_with_annotations`: guard on the total word count
(returning the empty dictionary when the document has too few words to count
as digital), then initialize one record per flow and fold the annotation loop
over the enriched annotations. -/
def get_flows_with_annotations (pdf : AnnotatedPdf) (transform : String → String) :
    Option (List FlowRecord) :=
  if totalWords pdf.doc < minimal_words_in_document then some []
  else
    (match_annotations_with_words pdf).bind (fun enriched =>
      enriched.foldlM (add_annot_to_flows pdf.doc transform) (initialize_flows pdf.doc))

/-! ### Concrete fixtures used by witness theorems -/

/-- A word element with identity `i` (all sample words share text and box;
identities keep them distinct). -/
def sampleWord (i : ℕ) : WordElem := ⟨i, "t", ⟨0, 0, 1, 1⟩⟩

/-- A one-page, two-flow, six-word sample document: flow 0 holds words 0–4
split across two blocks (a two-word line and a three-word line), flow 1 holds
word 5. -/
def sampleDoc : DocH :=
  ⟨[⟨[⟨[⟨[⟨[sampleWord 0, sampleWord 1]⟩]⟩, ⟨[⟨[sampleWord 2, sampleWord 3, sampleWord 4]⟩]⟩]⟩,
      ⟨[⟨[⟨[sampleWord 5]⟩]⟩]⟩]⟩]⟩

/-! ### Basic lemmas about the geometry engine -/

theorem mergeFirstPass_length {first : Rectangle} :
    ∀ {l m : List Rectangle} {b : Bool}, mergeFirstPass first l = some (m, b) → m.length = l.length := by
  intro l
  induction l with
  | nil =>
      intro m b h
      simp only [mergeFirstPass, Option.some.injEq, Prod.mk.injEq] at h
      rw [← h.1]
  | cons r rs ih =>
      intro m b h
      rw [mergeFirstPass] at h
      cases hio : first.get_iou r with
      | none => rw [hio] at h; simp at h
      | some iou =>
          rw [hio] at h
          cases hm : mergeFirstPass first rs with
          | none => rw [hm] at h; simp at h
          | some rb =>
              obtain ⟨rest, flag⟩ := rb
              rw [hm] at h
              simp only [Option.some_bind, Option.map_some'] at h
              split at h <;>
              · simp only [Option.some.injEq, Prod.mk.injEq] at h
                rw [← h.1]
                simp [List.length_cons, ih hm]

theorem normalizeAux_nil (fuel : ℕ) : normalizeAux fuel [] = some [] := by
  cases fuel <;> rfl

theorem normalizeAux_single (fuel : ℕ) (r : Rectangle) : normalizeAux fuel [r] = some [r] := by
  cases fuel <;> rfl

theorem normalizeAux_fuel_irrelevant :
    ∀ (f₁ : ℕ) (l : List Rectangle) (f₂ : ℕ), l.length ≤ f₁ → l.length ≤ f₂ →
      normalizeAux f₁ l = normalizeAux f₂ l := by
  intro f₁
  induction f₁ with
  | zero =>
      intro l f₂ h₁ _
      rw [Nat.le_zero, List.length_eq_zero] at h₁
      subst h₁
      rw [normalizeAux_nil, normalizeAux_nil]
  | succ g₁ ih =>
      intro l f₂ h₁ h₂
      match l, f₂ with
      | [], _ => rw [normalizeAux_nil, normalizeAux_nil]
      | [r], _ => rw [normalizeAux_single, normalizeAux_single]
      | a :: b :: t, 0 => simp at h₂
      | a :: b :: t, g₂ + 1 =>
          show (mergeFirstPass a (b :: t)).bind _ = (mergeFirstPass a (b :: t)).bind _
          cases hm : mergeFirstPass a (b :: t) with
          | none => rfl
          | some mb =>
              have hsome : mergeFirstPass a (b :: t) = some (mb.1, mb.2) := by rw [hm]
              have hlen0 : mb.1.length = (b :: t).length := mergeFirstPass_length hsome
              have hlen : mb.1.length ≤ g₁ := by
                simp only [List.length_cons] at h₁ hlen0
                omega
              have hlen₂ : mb.1.length ≤ g₂ := by
                simp only [List.length_cons] at h₂ hlen0
                omega
              simp only [Option.some_bind]
              rw [ih mb.1 g₂ hlen hlen₂]

theorem Rectangle.intersection_comm (a b : Rectangle) :
    a.intersection b = b.intersection a := by
  unfold Rectangle.intersection
  rw [max_comm a.x_min, max_comm a.y_min, min_comm a.x_max, min_comm a.y_max]

theorem Rectangle.intersection_eq_some {a b i : Rectangle}
    (h : a.intersection b = some i) :
    i.x_min = max a.x_min b.x_min ∧ i.y_min = max a.y_min b.y_min ∧
    i.x_max = min a.x_max b.x_max ∧ i.y_max = min a.y_max b.y_max ∧
    i.x_min ≤ i.x_max ∧ i.y_min ≤ i.y_max := by
  simp only [Rectangle.intersection] at h
  split at h
  · exact absurd h (by simp)
  · next hcond =>
      push_neg at hcond
      injection h with h
      subst h
      exact ⟨rfl, rfl, rfl, rfl, hcond.1, hcond.2⟩

theorem Rectangle.area_of_intersection_le {a b i : Rectangle}
    (h : a.intersection b = some i) :
    0 ≤ i.area ∧ i.area ≤ a.area ∧ i.area ≤ b.area := by
  obtain ⟨hx1, hy1, hx2, hy2, hxle, hyle⟩ := Rectangle.intersection_eq_some h
  have hw0 : 0 ≤ i.width := sub_nonneg.mpr hxle
  have hh0 : 0 ≤ i.height := sub_nonneg.mpr hyle
  have hwa : i.width ≤ a.width := by
    unfold Rectangle.width
    rw [hx1, hx2]
    exact sub_le_sub (min_le_left _ _) (le_max_left _ _)
  have hha : i.height ≤ a.height := by
    unfold Rectangle.height
    rw [hy1, hy2]
    exact sub_le_sub (min_le_left _ _) (le_max_left _ _)
  have hwb : i.width ≤ b.width := by
    unfold Rectangle.width
    rw [hx1, hx2]
    exact sub_le_sub (min_le_right _ _) (le_max_right _ _)
  have hhb : i.height ≤ b.height := by
    unfold Rectangle.height
    rw [hy1, hy2]
    exact sub_le_sub (min_le_right _ _) (le_max_right _ _)
  refine ⟨mul_nonneg hw0 hh0, ?_, ?_⟩
  · exact mul_le_mul hwa hha hh0 (le_trans hw0 hwa)
  · exact mul_le_mul hwb hhb hh0 (le_trans hw0 hwb)

theorem Rectangle.get_iou_eq_some_inter {a b i : Rectangle} (h : a.intersection b = some i) :
    a.get_iou b = if a.area + b.area - i.area = 0 then none
                  else some (i.area / (a.area + b.area - i.area)) := by
  unfold Rectangle.get_iou
  rw [h]

theorem Rectangle.get_iou_eq_none_inter {a b : Rectangle} (h : a.intersection b = none) :
    a.get_iou b = some 0 := by
  unfold Rectangle.get_iou
  rw [h]

theorem Rectangle.get_iou_bounds {a b : Rectangle} {v : ℚ}
    (h : a.get_iou b = some v) : 0 ≤ v ∧ v ≤ 1 := by
  unfold Rectangle.get_iou at h
  cases hi : a.intersection b with
  | none =>
      rw [hi] at h
      injection h with h
      subst h
      exact ⟨le_refl 0, zero_le_one⟩
  | some i =>
      rw [hi] at h
      simp only at h
      obtain ⟨h0, ha, hb⟩ := Rectangle.area_of_intersection_le hi
      split at h
      · exact absurd h (by simp)
      · next hdenom =>
          injection h with h
          subst h
          have hle : i.area ≤ a.area + b.area - i.area := by linarith
          have hpos : 0 < a.area + b.area - i.area :=
            lt_of_le_of_ne (by linarith) (Ne.symm hdenom)
          exact ⟨div_nonneg h0 (le_of_lt hpos), (div_le_one hpos).mpr hle⟩

theorem Rectangle.get_iou_comm (a b : Rectangle) : a.get_iou b = b.get_iou a := by
  unfold Rectangle.get_iou
  rw [Rectangle.intersection_comm]
  cases b.intersection a with
  | none => rfl
  | some i => rw [add_comm a.area b.area]

theorem zero_rect_intersection {r i : Rectangle}
    (h : Rectangle.intersection ⟨0, 0, 0, 0⟩ r = some i) : i = ⟨0, 0, 0, 0⟩ := by
  obtain ⟨hx1, hy1, hx2, hy2, hxle, hyle⟩ := Rectangle.intersection_eq_some h
  have h1 : (0 : ℚ) ≤ i.x_min := by rw [hx1]; exact le_max_left 0 r.x_min
  have h2 : i.x_max ≤ 0 := by rw [hx2]; exact min_le_left 0 r.x_max
  have h3 : (0 : ℚ) ≤ i.y_min := by rw [hy1]; exact le_max_left 0 r.y_min
  have h4 : i.y_max ≤ 0 := by rw [hy2]; exact min_le_left 0 r.y_max
  obtain ⟨a1, a2, a3, a4⟩ := i
  simp only [Rectangle.mk.injEq]
  simp only at h1 h2 h3 h4 hxle hyle
  refine ⟨by linarith, by linarith, by linarith, by linarith⟩

theorem pyint_eq_truncTowardZero (q : ℚ) : pyint q = truncTowardZero q := by
  unfold pyint truncTowardZero
  by_cases hq : 0 ≤ q
  · rw [if_pos hq, Rat.floor_def]
    exact Int.tdiv_eq_ediv (Rat.num_nonneg.mpr hq) (Int.ofNat_nonneg _)
  · rw [if_neg hq]
    have hneg : (0 : ℚ) ≤ -q := by
      push_neg at hq
      exact le_of_lt (neg_pos.mpr hq)
    have h1 : q.num.tdiv q.den = -((-q).num.tdiv (-q).den) := by
      rw [Rat.neg_num, Rat.neg_den, Int.neg_tdiv, neg_neg]
    rw [h1, Int.tdiv_eq_ediv (Rat.num_nonneg.mpr hneg) (Int.ofNat_nonneg _), ← Rat.floor_def,
      Int.floor_neg, neg_neg]

theorem normalizeAux_cons₂ (fuel : ℕ) (a b : Rectangle) (t : List Rectangle) :
    normalizeAux (fuel + 1) (a :: b :: t) =
      (mergeFirstPass a (b :: t)).bind (fun mb =>
        (normalizeAux fuel mb.1).map (fun rest_normalized =>
          if mb.2 then rest_normalized else a :: rest_normalized)) := rfl

theorem normalize_pair (a b : Rectangle) :
    normalize_list_of_rectangles [a, b] =
      (a.get_iou b).bind (fun iou =>
        if iou ≠ 0 then some [b.smallest_common_superrectangle a] else some [a, b]) := by
  show normalizeAux (1 + 1) [a, b] = _
  rw [normalizeAux_cons₂]
  simp only [mergeFirstPass]
  cases hio : a.get_iou b with
  | none => rfl
  | some iou =>
      simp only [Option.some_bind, Option.map_some']
      by_cases hi : iou = 0
      · simp [hi, normalizeAux_single]
      · simp [hi, normalizeAux_single]

/-! ### Claim theorems: geometry -/

/-- C2: for every native annotation rectangle `[b0, b1, b2, b3]` in
bottom-left-origin coordinates and every page height `h`, the extractor's box
has `y_min = h - b3`, `y_max = h - b1`, and both `x` coordinates unchanged. -/
theorem annotation_box_flips_vertical_axis (b0 b1 b2 b3 h : ℚ) :
    (create_annotations_bounding_box b0 b1 b2 b3 h true).x_min = b0 ∧
    (create_annotations_bounding_box b0 b1 b2 b3 h true).y_min = h - b3 ∧
    (create_annotations_bounding_box b0 b1 b2 b3 h true).x_max = b2 ∧
    (create_annotations_bounding_box b0 b1 b2 b3 h true).y_max = h - b1 :=
  ⟨rfl, rfl, rfl, rfl⟩

/-- C3 counterexample: at `r = Rectangle(0,0,0,0)` the call
`get_iou(Rectangle(0,0,0,0), r)` does intersect (the degenerate point box),
so the denominator `area+area-area = 0` is divided by: the run raises
`ZeroDivisionError` (`none`) instead of returning `0`, refuting the claim's
"for every rectangle r" and its "never raising" part. -/
theorem get_iou_zero_rect_raises :
    Rectangle.get_iou ⟨0, 0, 0, 0⟩ ⟨0, 0, 0, 0⟩ = none := by
  have hinter : Rectangle.intersection ⟨0, 0, 0, 0⟩ ⟨0, 0, 0, 0⟩ = some ⟨0, 0, 0, 0⟩ := by
    simp only [Rectangle.intersection]
    norm_num
  rw [Rectangle.get_iou_eq_some_inter hinter]
  norm_num [Rectangle.area, Rectangle.width, Rectangle.height]

/-- C3 (amended): `get_iou` returns `0` whenever the intersection is `none`,
and `get_iou(Rectangle(0,0,0,0), r)` returns `0` for every rectangle `r` of
nonzero area; but when `r` has zero area and meets the origin point, the
short-circuit does not apply and the division's denominator is `0`, so the
call raises `ZeroDivisionError` instead of returning. -/
theorem get_iou_zero_short_circuit (a b r : Rectangle) :
    (a.intersection b = none → a.get_iou b = some 0) ∧
    (r.area ≠ 0 → Rectangle.get_iou ⟨0, 0, 0, 0⟩ r = some 0) ∧
    (r.area = 0 → (Rectangle.intersection ⟨0, 0, 0, 0⟩ r).isSome →
      Rectangle.get_iou ⟨0, 0, 0, 0⟩ r = none) := by
  have hzero : Rectangle.area ⟨0, 0, 0, 0⟩ = 0 := by
    norm_num [Rectangle.area, Rectangle.width, Rectangle.height]
  refine ⟨fun h => Rectangle.get_iou_eq_none_inter h, fun hr => ?_, fun hr0 hs => ?_⟩
  · cases hi : Rectangle.intersection ⟨0, 0, 0, 0⟩ r with
    | none => exact Rectangle.get_iou_eq_none_inter hi
    | some i =>
        have hz : i = ⟨0, 0, 0, 0⟩ := zero_rect_intersection hi
        subst hz
        rw [Rectangle.get_iou_eq_some_inter hi, hzero]
        have hd : (0 : ℚ) + r.area - 0 ≠ 0 := by simpa using hr
        rw [if_neg hd]
        norm_num
  · rw [Option.isSome_iff_exists] at hs
    obtain ⟨i, hi⟩ := hs
    have hz : i = ⟨0, 0, 0, 0⟩ := zero_rect_intersection hi
    subst hz
    rw [Rectangle.get_iou_eq_some_inter hi, hzero]
    have hd : (0 : ℚ) + r.area - 0 = 0 := by simpa using hr0
    rw [if_pos hd]

/-- Witness for the amended C3 at concrete inputs: a disjoint pair yields
IoU `0`; the zero rectangle against a positive-area rectangle yields `0`;
the zero rectangle against a degenerate touching rectangle raises. -/
theorem get_iou_zero_short_circuit_witness :
    Rectangle.get_iou ⟨0, 0, 1, 1⟩ ⟨2, 2, 3, 3⟩ = some 0 ∧
    Rectangle.get_iou ⟨0, 0, 0, 0⟩ ⟨0, 0, 2, 2⟩ = some 0 ∧
    Rectangle.get_iou ⟨0, 0, 0, 0⟩ ⟨0, 0, 0, 5⟩ = none := by
  refine ⟨(get_iou_zero_short_circuit ⟨0, 0, 1, 1⟩ ⟨2, 2, 3, 3⟩ ⟨0, 0, 2, 2⟩).1 ?_,
    (get_iou_zero_short_circuit ⟨0, 0, 1, 1⟩ ⟨2, 2, 3, 3⟩ ⟨0, 0, 2, 2⟩).2.1 ?_,
    (get_iou_zero_short_circuit ⟨0, 0, 1, 1⟩ ⟨2, 2, 3, 3⟩ ⟨0, 0, 0, 5⟩).2.2 ?_ ?_⟩
  · simp only [Rectangle.intersection]
    norm_num
  · norm_num [Rectangle.area, Rectangle.width, Rectangle.height]
  · norm_num [Rectangle.area, Rectangle.width, Rectangle.height]
  · have hinter : Rectangle.intersection ⟨0, 0, 0, 0⟩ ⟨0, 0, 0, 5⟩ = some ⟨0, 0, 0, 0⟩ := by
      simp only [Rectangle.intersection]
      norm_num
    rw [hinter]
    rfl

/-- C8 counterexample: for this degenerate touching pair the intersection
exists but `area(a)+area(b)-area(inter) = 0`, so `get_iou` raises
`ZeroDivisionError` and returns no value at all — in particular no value
between `0` and `1`. -/
theorem get_iou_degenerate_pair_raises :
    Rectangle.intersection ⟨2, 3, 2, 5⟩ ⟨2, 1, 2, 4⟩ = some ⟨2, 3, 2, 4⟩ ∧
    Rectangle.get_iou ⟨2, 3, 2, 5⟩ ⟨2, 1, 2, 4⟩ = none := by
  have hinter : Rectangle.intersection ⟨2, 3, 2, 5⟩ ⟨2, 1, 2, 4⟩ = some ⟨2, 3, 2, 4⟩ := by
    simp only [Rectangle.intersection]
    norm_num
  refine ⟨hinter, ?_⟩
  rw [Rectangle.get_iou_eq_some_inter hinter]
  norm_num [Rectangle.area, Rectangle.width, Rectangle.height]

/-- C8 (amended): `intersection` is commutative; whenever `get_iou` returns a
value, that value lies in `[0, 1]`; and a `none` intersection yields IoU `0`.
(For degenerate touching pairs `get_iou` raises instead of returning a value;
see the counterexample.) -/
theorem intersection_comm_iou_bounded (a b : Rectangle) :
    a.intersection b = b.intersection a ∧
    (∀ v : ℚ, a.get_iou b = some v → 0 ≤ v ∧ v ≤ 1) ∧
    (a.intersection b = none → a.get_iou b = some 0) :=
  ⟨Rectangle.intersection_comm a b,
    fun _ h => Rectangle.get_iou_bounds h,
    fun h => Rectangle.get_iou_eq_none_inter h⟩

/-- Witness for the amended C8 at the concrete pair of the repository's own
rectangle test (`test_intersection`): their IoU is `1/9`, which lies in
`[0, 1]`, and a disjoint pair yields `0`. -/
theorem intersection_comm_iou_bounded_witness :
    Rectangle.intersection ⟨0, 1, 2, 3⟩ ⟨1, 1, 5, 5⟩ =
      Rectangle.intersection ⟨1, 1, 5, 5⟩ ⟨0, 1, 2, 3⟩ ∧
    (0 ≤ (1 : ℚ) / 9 ∧ (1 : ℚ) / 9 ≤ 1) ∧
    Rectangle.get_iou ⟨10, 10, 13, 13⟩ ⟨20, 20, 30, 30⟩ = some 0 := by
  have hiou : Rectangle.get_iou ⟨0, 1, 2, 3⟩ ⟨1, 1, 5, 5⟩ = some (1 / 9) := by
    have hinter : Rectangle.intersection ⟨0, 1, 2, 3⟩ ⟨1, 1, 5, 5⟩ = some ⟨1, 1, 2, 3⟩ := by
      simp only [Rectangle.intersection]
      norm_num
    rw [Rectangle.get_iou_eq_some_inter hinter]
    norm_num [Rectangle.area, Rectangle.width, Rectangle.height]
  refine ⟨(intersection_comm_iou_bounded ⟨0, 1, 2, 3⟩ ⟨1, 1, 5, 5⟩).1,
    (intersection_comm_iou_bounded ⟨0, 1, 2, 3⟩ ⟨1, 1, 5, 5⟩).2.1 (1 / 9) hiou,
    (intersection_comm_iou_bounded ⟨10, 10, 13, 13⟩ ⟨20, 20, 30, 30⟩).2.2 ?_⟩
  simp only [Rectangle.intersection]
  norm_num

/-- C9: `normalize_list_of_rectangles` mutates its argument.  On the list
below, whose two rectangles overlap, the top-level loop assigns the merged
superrectangle into slot 1 of the caller's list, so after the call the list
no longer holds its original elements. -/
theorem normalize_mutates_caller_list :
    normalize_arg_after [⟨0, 0, 2, 2⟩, ⟨1, 1, 3, 3⟩] =
      some [⟨0, 0, 2, 2⟩, ⟨0, 0, 3, 3⟩] ∧
    [(⟨0, 0, 2, 2⟩ : Rectangle), ⟨0, 0, 3, 3⟩] ≠ [⟨0, 0, 2, 2⟩, ⟨1, 1, 3, 3⟩] := by
  have hio : Rectangle.get_iou ⟨0, 0, 2, 2⟩ ⟨1, 1, 3, 3⟩ = some (1 / 7) := by
    have hinter : Rectangle.intersection ⟨0, 0, 2, 2⟩ ⟨1, 1, 3, 3⟩ = some ⟨1, 1, 2, 2⟩ := by
      simp only [Rectangle.intersection]
      norm_num
    rw [Rectangle.get_iou_eq_some_inter hinter]
    norm_num [Rectangle.area, Rectangle.width, Rectangle.height]
  constructor
  · simp only [normalize_arg_after, mergeFirstPass, hio, Option.some_bind, Option.map_some']
    norm_num [Rectangle.smallest_common_superrectangle, min_def, max_def]
  · simp [Rectangle.mk.injEq]

/-- C10: `to_int` truncates each coordinate toward zero (floor for
nonnegative coordinates, ceiling for negative ones) rather than rounding to
the nearest integer; in particular `1.9` becomes `1` and `-0.5` becomes `0`. -/
theorem to_int_truncates_toward_zero :
    (∀ r : Rectangle,
      r.to_int = { x_min := (truncTowardZero r.x_min : ℚ)
                   y_min := (truncTowardZero r.y_min : ℚ)
                   x_max := (truncTowardZero r.x_max : ℚ)
                   y_max := (truncTowardZero r.y_max : ℚ) }) ∧
    Rectangle.to_int ⟨19 / 10, -(1 / 2), 19 / 10, -(1 / 2)⟩ = ⟨1, 0, 1, 0⟩ := by
  have hgen : ∀ r : Rectangle,
      r.to_int = { x_min := (truncTowardZero r.x_min : ℚ)
                   y_min := (truncTowardZero r.y_min : ℚ)
                   x_max := (truncTowardZero r.x_max : ℚ)
                   y_max := (truncTowardZero r.y_max : ℚ) } := by
    intro r
    unfold Rectangle.to_int
    rw [pyint_eq_truncTowardZero, pyint_eq_truncTowardZero, pyint_eq_truncTowardZero,
      pyint_eq_truncTowardZero]
  refine ⟨hgen, ?_⟩
  rw [hgen]
  have h19 : truncTowardZero (19 / 10) = 1 := by
    unfold truncTowardZero
    rw [if_pos (by norm_num)]
    norm_num
  have hneg : truncTowardZero (-(1 / 2)) = 0 := by
    unfold truncTowardZero
    rw [if_neg (by norm_num)]
    norm_num
  simp only [h19, hneg]
  norm_num

/-- C4 counterexample: on the 3-element list below the first rectangle is
disjoint from both others, which overlap each other and merge to their hull
`(0,0,6,6)`; the head is never re-checked against that hull, so the output
`[(3,1,5,3), (0,0,6,6)]` contains a pair with IoU `1/9 ≠ 0`, and re-running
the function on it merges them, yielding a different (shorter) list:
`normalize_list_of_rectangles` is not idempotent and its output can contain
overlapping rectangles. -/
theorem normalize_not_idempotent :
    normalize_list_of_rectangles [⟨3, 1, 5, 3⟩, ⟨0, 0, 2, 6⟩, ⟨1, 5, 6, 6⟩] =
      some [⟨3, 1, 5, 3⟩, ⟨0, 0, 6, 6⟩] ∧
    Rectangle.get_iou ⟨3, 1, 5, 3⟩ ⟨0, 0, 6, 6⟩ = some (1 / 9) ∧
    ((1 : ℚ) / 9 ≠ 0) ∧
    normalize_list_of_rectangles [⟨3, 1, 5, 3⟩, ⟨0, 0, 6, 6⟩] = some [⟨0, 0, 6, 6⟩] ∧
    ([(⟨0, 0, 6, 6⟩ : Rectangle)] ≠ [⟨3, 1, 5, 3⟩, ⟨0, 0, 6, 6⟩]) := by
  have hAB : Rectangle.get_iou ⟨3, 1, 5, 3⟩ ⟨0, 0, 2, 6⟩ = some 0 := by
    apply Rectangle.get_iou_eq_none_inter
    simp only [Rectangle.intersection]
    norm_num
  have hAC : Rectangle.get_iou ⟨3, 1, 5, 3⟩ ⟨1, 5, 6, 6⟩ = some 0 := by
    apply Rectangle.get_iou_eq_none_inter
    simp only [Rectangle.intersection]
    norm_num
  have hBC : Rectangle.get_iou ⟨0, 0, 2, 6⟩ ⟨1, 5, 6, 6⟩ = some (1 / 16) := by
    have hinter : Rectangle.intersection ⟨0, 0, 2, 6⟩ ⟨1, 5, 6, 6⟩ = some ⟨1, 5, 2, 6⟩ := by
      simp only [Rectangle.intersection]
      norm_num
    rw [Rectangle.get_iou_eq_some_inter hinter]
    norm_num [Rectangle.area, Rectangle.width, Rectangle.height]
  have hAG : Rectangle.get_iou ⟨3, 1, 5, 3⟩ ⟨0, 0, 6, 6⟩ = some (1 / 9) := by
    have hinter : Rectangle.intersection ⟨3, 1, 5, 3⟩ ⟨0, 0, 6, 6⟩ = some ⟨3, 1, 5, 3⟩ := by
      simp only [Rectangle.intersection]
      norm_num
    rw [Rectangle.get_iou_eq_some_inter hinter]
    norm_num [Rectangle.area, Rectangle.width, Rectangle.height]
  have hmA : mergeFirstPass ⟨3, 1, 5, 3⟩ [⟨0, 0, 2, 6⟩, ⟨1, 5, 6, 6⟩] =
      some ([⟨0, 0, 2, 6⟩, ⟨1, 5, 6, 6⟩], false) := by
    simp only [mergeFirstPass, hAB, hAC, Option.some_bind, Option.map_some']
    norm_num
  have hmB : mergeFirstPass ⟨0, 0, 2, 6⟩ [⟨1, 5, 6, 6⟩] = some ([⟨0, 0, 6, 6⟩], true) := by
    simp only [mergeFirstPass, hBC, Option.some_bind, Option.map_some']
    norm_num [Rectangle.smallest_common_superrectangle, min_def, max_def]
  have h2 : normalizeAux 2 [⟨0, 0, 2, 6⟩, ⟨1, 5, 6, 6⟩] = some [⟨0, 0, 6, 6⟩] := by
    show normalizeAux (1 + 1) _ = _
    rw [normalizeAux_cons₂, hmB]
    simp [normalizeAux_single]
  have hfirst : normalize_list_of_rectangles [⟨3, 1, 5, 3⟩, ⟨0, 0, 2, 6⟩, ⟨1, 5, 6, 6⟩] =
      some [⟨3, 1, 5, 3⟩, ⟨0, 0, 6, 6⟩] := by
    show normalizeAux (2 + 1) _ = _
    rw [normalizeAux_cons₂, hmA]
    simp only [Option.some_bind]
    rw [h2]
    simp
  have hsecond : normalize_list_of_rectangles [⟨3, 1, 5, 3⟩, ⟨0, 0, 6, 6⟩] =
      some [⟨0, 0, 6, 6⟩] := by
    rw [normalize_pair, hAG]
    simp only [Option.some_bind]
    rw [if_pos (by norm_num)]
    norm_num [Rectangle.smallest_common_superrectangle, min_def, max_def]
  exact ⟨hfirst, hAG, by norm_num, hsecond, by simp⟩

/-- C4 (amended): on lists of at most two rectangles (in particular every
list the merge pass leaves unchanged or fully merges),
`normalize_list_of_rectangles` is idempotent when it returns: no two output
elements have nonzero IoU and re-running it on its own output yields the same
list.  On three or more rectangles this can fail, because the head is never
re-checked against tail elements that a later merge enlarged (see the
counterexample). -/
theorem normalize_short_idempotent (l out : List Rectangle) (hlen : l.length ≤ 2)
    (h : normalize_list_of_rectangles l = some out) :
    out.Pairwise (fun a b => a.get_iou b = some 0 ∧ b.get_iou a = some 0) ∧
    normalize_list_of_rectangles out = some out := by
  obtain _ | ⟨a, _ | ⟨b, _ | ⟨c, t⟩⟩⟩ := l
  · have hout : out = [] := by
      rw [normalize_list_of_rectangles] at h
      rw [normalizeAux_nil] at h
      exact (Option.some.injEq _ _ ▸ h).symm
    subst hout
    exact ⟨List.Pairwise.nil, by rw [normalize_list_of_rectangles, normalizeAux_nil]⟩
  · have hout : out = [a] := by
      rw [normalize_list_of_rectangles] at h
      rw [normalizeAux_single] at h
      exact (Option.some.injEq _ _ ▸ h).symm
    subst hout
    exact ⟨List.pairwise_singleton _ _,
      by rw [normalize_list_of_rectangles, normalizeAux_single]⟩
  · rw [normalize_pair] at h
    cases hio : Rectangle.get_iou a b with
    | none => rw [hio] at h; simp at h
    | some iou =>
        rw [hio] at h
        simp only [Option.some_bind] at h
        by_cases hi : iou = 0
        · have hnn : ¬(iou ≠ 0) := by simpa using hi
          rw [if_neg hnn] at h
          injection h with h
          have hout : out = [a, b] := h.symm
          subst hout
          have hab : Rectangle.get_iou a b = some 0 := by rw [hio, hi]
          have hba : Rectangle.get_iou b a = some 0 := by
            rw [Rectangle.get_iou_comm b a]
            exact hab
          refine ⟨?_, ?_⟩
          · exact List.Pairwise.cons
              (fun y hy => by rw [List.mem_singleton] at hy; subst hy; exact ⟨hab, hba⟩)
              (List.pairwise_singleton _ _)
          · rw [normalize_pair, hio]
            simp only [Option.some_bind]
            rw [if_neg hnn]
        · rw [if_pos hi] at h
          injection h with h
          have hout : out = [b.smallest_common_superrectangle a] := h.symm
          subst hout
          exact ⟨List.pairwise_singleton _ _,
            by rw [normalize_list_of_rectangles, normalizeAux_single]⟩
  · exfalso
    simp only [List.length_cons] at hlen
    omega

/-- Witness for the amended C4 at a concrete disjoint pair: the function
returns the list unchanged, the output is pairwise non-overlapping, and
re-running reproduces it. -/
theorem normalize_short_idempotent_witness :
    normalize_list_of_rectangles [⟨0, 0, 1, 1⟩, ⟨5, 5, 6, 6⟩] =
      some [⟨0, 0, 1, 1⟩, ⟨5, 5, 6, 6⟩] ∧
    (([(⟨0, 0, 1, 1⟩ : Rectangle), ⟨5, 5, 6, 6⟩]).Pairwise
        (fun a b => a.get_iou b = some 0 ∧ b.get_iou a = some 0) ∧
      normalize_list_of_rectangles [⟨0, 0, 1, 1⟩, ⟨5, 5, 6, 6⟩] =
        some [⟨0, 0, 1, 1⟩, ⟨5, 5, 6, 6⟩]) := by
  have hio : Rectangle.get_iou ⟨0, 0, 1, 1⟩ ⟨5, 5, 6, 6⟩ = some 0 := by
    apply Rectangle.get_iou_eq_none_inter
    simp only [Rectangle.intersection]
    norm_num
  have hcomp : normalize_list_of_rectangles [⟨0, 0, 1, 1⟩, ⟨5, 5, 6, 6⟩] =
      some [⟨0, 0, 1, 1⟩, ⟨5, 5, 6, 6⟩] := by
    rw [normalize_pair, hio]
    simp
  exact ⟨hcomp, normalize_short_idempotent _ _ (by norm_num) hcomp⟩

/-! ### Lemmas about the word-annotation matcher -/

theorem word_score_eq_none_inter {wb ab : Rectangle} (h : wb.intersection ab = none) :
    word_score wb ab = some 0 := by
  unfold word_score
  rw [h]

theorem word_score_eq_some_inter {wb ab i : Rectangle} (h : wb.intersection ab = some i) :
    word_score wb ab = if wb.area = 0 then none else some (i.area / wb.area) := by
  unfold word_score
  rw [h]

theorem intersection_of_contained {a w : Rectangle}
    (hc : a.contains_other w = true) (hx : w.x_min ≤ w.x_max) (hy : w.y_min ≤ w.y_max) :
    w.intersection a = some w := by
  simp only [Rectangle.contains_other, Bool.and_eq_true, decide_eq_true_eq] at hc
  obtain ⟨⟨hc1, hc2⟩, hc3, hc4⟩ := hc
  simp only [Rectangle.intersection]
  rw [max_eq_left hc1, max_eq_left hc3, min_eq_left hc2, min_eq_left hc4]
  rw [if_neg (by push_neg; exact ⟨hx, hy⟩)]

theorem word_score_of_contained {a w : Rectangle}
    (hc : a.contains_other w = true) (har : 0 < w.area) (hx : w.x_min ≤ w.x_max) :
    word_score w a = some 1 := by
  have hy : w.y_min ≤ w.y_max := by
    by_contra hcon
    push_neg at hcon
    have hw0 : 0 ≤ w.width := sub_nonneg.mpr hx
    have hh0 : w.height ≤ 0 := by unfold Rectangle.height; linarith
    have harle : w.area ≤ 0 := by
      unfold Rectangle.area
      exact mul_nonpos_iff.mpr (Or.inl ⟨hw0, hh0⟩)
    linarith
  rw [word_score_eq_some_inter (intersection_of_contained hc hx hy)]
  rw [if_neg (ne_of_gt har)]
  rw [div_self (ne_of_gt har)]

theorem get_scored_words_mem {annot : Annotation} {t : ℚ} :
    ∀ {ws : List WordElem} {out : List (WordElem × ℚ)},
      get_scored_words ws annot t = some out →
      ∀ {w : WordElem}, w ∈ ws → ∀ {s : ℚ}, word_score w.box annot.box = some s →
        s > t → (w, s) ∈ out := by
  intro ws
  induction ws with
  | nil => intro out h w hw; exact absurd hw (List.not_mem_nil w)
  | cons w' ws' ih =>
      intro out h w hw s hs hgt
      rw [get_scored_words] at h
      cases hsc : word_score w'.box annot.box with
      | none => rw [hsc] at h; simp at h
      | some sc =>
          rw [hsc] at h
          cases hrec : get_scored_words ws' annot t with
          | none => rw [hrec] at h; simp at h
          | some rest =>
              rw [hrec] at h
              simp only [Option.some_bind, Option.map_some', Option.some.injEq] at h
              rcases List.mem_cons.mp hw with hww | hww
              · subst hww
                rw [hs] at hsc
                injection hsc with hsc
                subst hsc
                rw [← h, if_pos hgt]
                exact List.mem_cons_self _ _
              · have hmem : (w, s) ∈ rest := ih hrec hww hs hgt
                rw [← h]
                split
                · exact List.mem_cons_of_mem _ hmem
                · exact hmem

theorem get_scored_words_not_mem {annot : Annotation} {t : ℚ} (ht : 0 ≤ t) :
    ∀ {ws : List WordElem} {out : List (WordElem × ℚ)},
      get_scored_words ws annot t = some out →
      ∀ {w : WordElem}, word_score w.box annot.box = some 0 →
        ∀ s : ℚ, (w, s) ∉ out := by
  intro ws
  induction ws with
  | nil =>
      intro out h w _ s
      rw [get_scored_words] at h
      injection h with h
      rw [← h]
      exact List.not_mem_nil _
  | cons w' ws' ih =>
      intro out h w hs s
      rw [get_scored_words] at h
      cases hsc : word_score w'.box annot.box with
      | none => rw [hsc] at h; simp at h
      | some sc =>
          rw [hsc] at h
          cases hrec : get_scored_words ws' annot t with
          | none => rw [hrec] at h; simp at h
          | some rest =>
              rw [hrec] at h
              simp only [Option.some_bind, Option.map_some', Option.some.injEq] at h
              rw [← h]
              by_cases hww : w' = w
              · subst hww
                rw [hs] at hsc
                injection hsc with hsc
                rw [if_neg (by rw [← hsc]; exact not_lt.mpr ht)]
                exact ih hrec hs s
              · split
                · intro hmem
                  rcases List.mem_cons.mp hmem with heq | hmem'
                  · exact hww (congrArg Prod.fst heq).symm
                  · exact ih hrec hs s hmem'
                · exact ih hrec hs s

theorem foldl_max_by_score (xs : List (WordElem × ℚ)) :
    ∀ x : WordElem × ℚ,
      (xs.foldl (fun best y => if y.2 > best.2 then y else best) x) ∈ x :: xs ∧
      x.2 ≤ (xs.foldl (fun best y => if y.2 > best.2 then y else best) x).2 ∧
      ∀ y ∈ xs, y.2 ≤ (xs.foldl (fun best y => if y.2 > best.2 then y else best) x).2 := by
  induction xs with
  | nil =>
      intro x
      exact ⟨List.mem_singleton_self x, le_refl _, fun y hy => absurd hy (List.not_mem_nil y)⟩
  | cons z zs ih =>
      intro x
      simp only [List.foldl_cons]
      obtain ⟨hmem, hacc, hall⟩ := ih (if z.2 > x.2 then z else x)
      have hxle : x.2 ≤ (if z.2 > x.2 then z else x).2 := by
        split
        · next hz => exact le_of_lt hz
        · exact le_refl _
      have hzle : z.2 ≤ (if z.2 > x.2 then z else x).2 := by
        split
        · exact le_refl _
        · next hz => exact le_of_not_lt hz
      refine ⟨?_, le_trans hxle hacc, ?_⟩
      · rcases List.mem_cons.mp hmem with h1 | h1
        · rw [h1]
          split
          · exact List.mem_cons_of_mem _ (List.mem_cons_self _ _)
          · exact List.mem_cons_self _ _
        · exact List.mem_cons_of_mem _ (List.mem_cons_of_mem _ h1)
      · intro y hy
        rcases List.mem_cons.mp hy with h1 | h1
        · rw [h1]; exact le_trans hzle hacc
        · exact hall y h1

theorem max_by_score_spec {l : List (WordElem × ℚ)} {b : WordElem × ℚ}
    (h : max_by_score l = some b) : b ∈ l ∧ ∀ y ∈ l, y.2 ≤ b.2 := by
  cases l with
  | nil => exact absurd h (by simp [max_by_score])
  | cons x xs =>
      rw [max_by_score] at h
      injection h with h
      obtain ⟨hmem, hacc, hall⟩ := foldl_max_by_score xs x
      rw [h] at hmem hacc hall
      refine ⟨hmem, fun y hy => ?_⟩
      rcases List.mem_cons.mp hy with h1 | h1
      · rw [h1]; exact hacc
      · exact hall y h1

/-! ### Claim theorems: word-annotation matcher -/

/-- C7 counterexample: an inverted word box (`x_min > x_max` and
`y_min > y_max`) has positive area `(-1)·(-1) = 1` and passes the non-strict
containment test against the annotation box, yet its `intersection` with the
annotation box is `None`, so the matcher scores it `0`, not `1.0`, and the
primary tier does not select it. -/
theorem matcher_contained_inverted_box_scores_zero :
    Rectangle.contains_other ⟨0, 0, 2, 2⟩ ⟨1, 1, 0, 0⟩ = true ∧
    Rectangle.area ⟨1, 1, 0, 0⟩ = 1 ∧
    word_score ⟨1, 1, 0, 0⟩ ⟨0, 0, 2, 2⟩ = some 0 ∧
    get_scored_words [⟨7, "w", ⟨1, 1, 0, 0⟩⟩]
      ⟨0, "rectangle", ⟨0, 0, 2, 2⟩, none, none, none⟩ match_words_threshold = some [] := by
  have hinter : Rectangle.intersection ⟨1, 1, 0, 0⟩ ⟨0, 0, 2, 2⟩ = none := by
    simp only [Rectangle.intersection]
    norm_num
  have hws : word_score ⟨1, 1, 0, 0⟩ ⟨0, 0, 2, 2⟩ = some 0 := word_score_eq_none_inter hinter
  refine ⟨?_, ?_, hws, ?_⟩
  · rfl
  · norm_num [Rectangle.area, Rectangle.width, Rectangle.height]
  · simp only [get_scored_words, hws, Option.some_bind, Option.map_some']
    rw [if_neg (by norm_num [match_words_threshold])]

/-- C7 (amended): the matcher's score of a word is `0` when the word box does
not intersect the annotation box, else the fraction
`intersection.area / word_box.area` of the word's own box covered by the
annotation.  Every word box with positive area and coordinate-ordered bounds
(`x_min ≤ x_max`; the inverted-box counterexample forces this extra
hypothesis) that is fully contained in the annotation box scores exactly `1`
and is selected by the primary tier whenever the scoring pass returns; every
word box disjoint from the annotation box scores `0` and is selected by
neither tier. -/
theorem matcher_score_coverage_fraction (a : Annotation) (w : WordElem) :
    (∀ i : Rectangle, w.box.intersection a.box = some i → w.box.area ≠ 0 →
      word_score w.box a.box = some (i.area / w.box.area)) ∧
    (a.box.contains_other w.box = true → 0 < w.box.area → w.box.x_min ≤ w.box.x_max →
      word_score w.box a.box = some 1 ∧
      ∀ (ws : List WordElem) (out : List (WordElem × ℚ)), w ∈ ws →
        get_scored_words ws a match_words_threshold = some out → (w, 1) ∈ out) ∧
    (w.box.intersection a.box = none →
      word_score w.box a.box = some 0 ∧
      ∀ (ws : List WordElem) (out : List (WordElem × ℚ)) (t s : ℚ), w ∈ ws → 0 ≤ t →
        get_scored_words ws a t = some out → (w, s) ∉ out) := by
  refine ⟨fun i hi har => ?_, fun hc har hx => ?_, fun hdisj => ?_⟩
  · rw [word_score_eq_some_inter hi, if_neg har]
  · have hs1 : word_score w.box a.box = some 1 := word_score_of_contained hc har hx
    refine ⟨hs1, fun ws out hw hout => ?_⟩
    exact get_scored_words_mem hout hw hs1 (by norm_num [match_words_threshold])
  · have hs0 : word_score w.box a.box = some 0 := word_score_eq_none_inter hdisj
    refine ⟨hs0, fun ws out t s hw ht hout => ?_⟩
    exact get_scored_words_not_mem ht hout hs0 s

/-- Witness for the amended C7: a unit word box inside a larger annotation
box scores `1` and is selected by the primary tier; a disjoint word box is in
the output of neither tier. -/
theorem matcher_score_coverage_fraction_witness :
    word_score ⟨1, 1, 2, 2⟩ ⟨0, 0, 10, 10⟩ = some 1 ∧
    ((⟨3, "in", ⟨1, 1, 2, 2⟩⟩ : WordElem), (1 : ℚ)) ∈
      [((⟨3, "in", ⟨1, 1, 2, 2⟩⟩ : WordElem), (1 : ℚ))] ∧
    word_score ⟨20, 20, 21, 21⟩ ⟨0, 0, 10, 10⟩ = some 0 ∧
    ¬((⟨4, "out", ⟨20, 20, 21, 21⟩⟩ : WordElem), (0 : ℚ)) ∈
      ([] : List (WordElem × ℚ)) := by
  have ha : ((⟨0, "rectangle", ⟨0, 0, 10, 10⟩, none, none, none⟩ : Annotation)).box
      = ⟨0, 0, 10, 10⟩ := rfl
  have hcontains : Rectangle.contains_other ⟨0, 0, 10, 10⟩ ⟨1, 1, 2, 2⟩ = true := by rfl
  have harea : (0 : ℚ) < Rectangle.area ⟨1, 1, 2, 2⟩ := by
    norm_num [Rectangle.area, Rectangle.width, Rectangle.height]
  have h1 := (matcher_score_coverage_fraction
      ⟨0, "rectangle", ⟨0, 0, 10, 10⟩, none, none, none⟩ ⟨3, "in", ⟨1, 1, 2, 2⟩⟩).2.1
      hcontains harea (by norm_num)
  have hdisj : Rectangle.intersection ⟨20, 20, 21, 21⟩ ⟨0, 0, 10, 10⟩ = none := by
    simp only [Rectangle.intersection]
    norm_num
  have hscored : get_scored_words [⟨3, "in", ⟨1, 1, 2, 2⟩⟩]
      ⟨0, "rectangle", ⟨0, 0, 10, 10⟩, none, none, none⟩ match_words_threshold =
        some [(⟨3, "in", ⟨1, 1, 2, 2⟩⟩, 1)] := by
    simp only [get_scored_words, h1.1, Option.some_bind, Option.map_some']
    rw [if_pos (by norm_num [match_words_threshold])]
  have h2 := (matcher_score_coverage_fraction
      ⟨0, "rectangle", ⟨0, 0, 10, 10⟩, none, none, none⟩ ⟨4, "out", ⟨20, 20, 21, 21⟩⟩).2.2
      hdisj
  have hscored0 : get_scored_words [⟨4, "out", ⟨20, 20, 21, 21⟩⟩]
      ⟨0, "rectangle", ⟨0, 0, 10, 10⟩, none, none, none⟩ match_words_threshold =
        some [] := by
    simp only [get_scored_words, h2.1, Option.some_bind, Option.map_some']
    rw [if_neg (by norm_num [match_words_threshold])]
  refine ⟨h1.1, ?_, h2.1, ?_⟩
  · exact h1.2 [⟨3, "in", ⟨1, 1, 2, 2⟩⟩] [(⟨3, "in", ⟨1, 1, 2, 2⟩⟩, 1)]
      (List.mem_singleton_self _) hscored
  · exact h2.2 [⟨4, "out", ⟨20, 20, 21, 21⟩⟩] [] match_words_threshold 0
      (List.mem_singleton_self _) (by norm_num [match_words_threshold]) hscored0

/-- C1: the matcher's fallback tier is consulted only when the primary tier
(score `> 0.4`) selects no word: when the primary tier selects at least one
word all of them are returned; when it selects none and the fallback tier
(score `> 0.2`) selects at least one, exactly one word is returned — one of
the fallback candidates with maximal score; and when the fallback tier also
selects none, the empty match is returned. -/
theorem matcher_fallback_policy (annot : Annotation) (ws : List WordElem)
    (ps fs : List (WordElem × ℚ))
    (hp : get_scored_words ws annot match_words_threshold = some ps)
    (hf : get_scored_words ws annot match_words_minimal_threshold = some fs) :
    (ps ≠ [] → find_words_related_to_one_annotation annot ws = some ps) ∧
    (ps = [] → fs ≠ [] →
      ∃ b, find_words_related_to_one_annotation annot ws = some [b] ∧
        b ∈ fs ∧ ∀ y ∈ fs, y.2 ≤ b.2) ∧
    (ps = [] → fs = [] → find_words_related_to_one_annotation annot ws = some []) := by
  unfold find_words_related_to_one_annotation
  rw [hp]
  simp only [Option.some_bind]
  refine ⟨fun hne => ?_, fun he hfne => ?_, fun he hfe => ?_⟩
  · rw [if_pos hne]
  · subst he
    rw [if_neg (by simp), hf]
    simp only [Option.map_some']
    cases hmb : max_by_score fs with
    | none =>
        cases fs with
        | nil => exact absurd rfl hfne
        | cons x xs => exact absurd hmb (by simp [max_by_score])
    | some b =>
        obtain ⟨hmem, hmax⟩ := max_by_score_spec hmb
        exact ⟨b, rfl, hmem, hmax⟩
  · subst he
    subst hfe
    rw [if_neg (by simp), hf]
    simp only [Option.map_some']
    rfl

/-- Witness for C1 at a concrete weak match: the word covers the annotation
box for `3/10` of its own area, so the primary tier selects nothing, the
fallback tier selects it, and the matcher returns exactly that word. -/
theorem matcher_fallback_policy_witness :
    ∃ b, find_words_related_to_one_annotation
        ⟨0, "rectangle", ⟨0, 0, 3, 1⟩, none, none, none⟩ [⟨5, "w", ⟨0, 0, 10, 1⟩⟩] =
          some [b] ∧
      b ∈ [((⟨5, "w", ⟨0, 0, 10, 1⟩⟩ : WordElem), (3 : ℚ) / 10)] ∧
      ∀ y ∈ [((⟨5, "w", ⟨0, 0, 10, 1⟩⟩ : WordElem), (3 : ℚ) / 10)], y.2 ≤ b.2 := by
  have hinter : Rectangle.intersection ⟨0, 0, 10, 1⟩ ⟨0, 0, 3, 1⟩ = some ⟨0, 0, 3, 1⟩ := by
    simp only [Rectangle.intersection]
    norm_num
  have hws : word_score ⟨0, 0, 10, 1⟩ ⟨0, 0, 3, 1⟩ = some (3 / 10) := by
    rw [word_score_eq_some_inter hinter]
    norm_num [Rectangle.area, Rectangle.width, Rectangle.height]
  have hp : get_scored_words [⟨5, "w", ⟨0, 0, 10, 1⟩⟩]
      ⟨0, "rectangle", ⟨0, 0, 3, 1⟩, none, none, none⟩ match_words_threshold = some [] := by
    simp only [get_scored_words, hws, Option.some_bind, Option.map_some']
    rw [if_neg (by norm_num [match_words_threshold])]
  have hf : get_scored_words [⟨5, "w", ⟨0, 0, 10, 1⟩⟩]
      ⟨0, "rectangle", ⟨0, 0, 3, 1⟩, none, none, none⟩ match_words_minimal_threshold =
        some [(⟨5, "w", ⟨0, 0, 10, 1⟩⟩, 3 / 10)] := by
    simp only [get_scored_words, hws, Option.some_bind, Option.map_some']
    rw [if_pos (by norm_num [match_words_minimal_threshold])]
  exact (matcher_fallback_policy ⟨0, "rectangle", ⟨0, 0, 3, 1⟩, none, none, none⟩
    [⟨5, "w", ⟨0, 0, 10, 1⟩⟩] [] [(⟨5, "w", ⟨0, 0, 10, 1⟩⟩, 3 / 10)] hp hf).2.1 rfl (by simp)

/-! ### Lemmas about the flow hierarchy -/

theorem findIdxOpt_spec {α : Type} {p : α → Bool} :
    ∀ {l : List α} {i : ℕ}, findIdxOpt p l = some i →
      ∃ x, l.get? i = some x ∧ p x = true := by
  intro l
  induction l with
  | nil => intro i h; simp [findIdxOpt] at h
  | cons a as ih =>
      intro i h
      rw [findIdxOpt] at h
      split at h
      · next hp =>
          injection h with h
          subst h
          exact ⟨a, rfl, hp⟩
      · cases hrec : findIdxOpt p as with
        | none => rw [hrec] at h; simp at h
        | some j =>
            rw [hrec] at h
            simp only [Option.map_some', Option.some.injEq] at h
            subst h
            obtain ⟨x, hx, hpx⟩ := ih hrec
            exact ⟨x, by simpa using hx, hpx⟩

theorem traverseOption_cons_eq {α β : Type} {f : α → Option β} {x : α} {xs : List α}
    {res : List β} (h : traverseOption f (x :: xs) = some res) :
    ∃ b bs, f x = some b ∧ traverseOption f xs = some bs ∧ res = b :: bs := by
  rw [traverseOption] at h
  cases hx : f x with
  | none => rw [hx] at h; simp at h
  | some b =>
      rw [hx] at h
      cases hrec : traverseOption f xs with
      | none => rw [hrec] at h; simp at h
      | some bs =>
          rw [hrec] at h
          simp only [Option.some_bind, Option.map_some', Option.some.injEq] at h
          exact ⟨b, bs, rfl, rfl, h.symm⟩

theorem traverseOption_mem {α β : Type} {f : α → Option β} :
    ∀ {l : List α} {res : List β}, traverseOption f l = some res →
      ∀ a ∈ l, ∃ b ∈ res, f a = some b := by
  intro l
  induction l with
  | nil => intro res _ a ha; exact absurd ha (List.not_mem_nil a)
  | cons x xs ih =>
      intro res h a ha
      obtain ⟨b, bs, hx, hrec, hres⟩ := traverseOption_cons_eq h
      subst hres
      rcases List.mem_cons.mp ha with h1 | h1
      · subst h1
        exact ⟨b, List.mem_cons_self _ _, hx⟩
      · obtain ⟨b', hb', hfb'⟩ := ih hrec a h1
        exact ⟨b', List.mem_cons_of_mem _ hb', hfb'⟩

/-! ### Claim theorems: flow neighborhood resolver and aggregator -/

/-- C5: for a non-empty list of matched words whose three-level ancestry
resolves (to the flow indices `parents`): if more than one distinct flow
occurs, the resolver returns `None`; otherwise it returns the single flow,
the texts of all its words, and the strictly increasing (document-order) list
of indices holding exactly the input words — with no contiguity assumption,
since a non-contiguous index set only triggers a warning and not a different
result. -/
theorem neighborhood_resolution (d : DocH) (ws : List WordElem) (parents : List ℕ)
    (hne : ws ≠ []) (hp : traverseOption (flowIndexOfWord d) ws = some parents) :
    (1 < parents.dedup.length → get_neighborhood_of_words d ws = some none) ∧
    (∀ p, parents.dedup = [p] →
      ∃ fl nb, d.flowsList.get? p = some fl ∧
        get_neighborhood_of_words d ws = some (some nb) ∧
        nb.flow = p ∧
        nb.words = fl.wordsIn.map WordElem.text ∧
        nb.indices.Sorted (· < ·) ∧
        (∀ i ∈ nb.indices, ∃ w ∈ ws, fl.wordsIn.get? i = some w) ∧
        (∀ w ∈ ws, ∃ i ∈ nb.indices, fl.wordsIn.get? i = some w)) := by
  constructor
  · intro hgt
    unfold get_neighborhood_of_words
    rw [if_neg hne, hp]
    simp only [Option.some_bind]
    rw [if_pos (by omega)]
  · intro p hdd
    have hlen1 : ¬(parents.dedup.length ≠ 1) := by rw [hdd]; simp
    cases parents with
    | nil => exact absurd hdd (by simp)
    | cons p₀ rest =>
        have hp₀ : p₀ = p := by
          have hmem : p₀ ∈ (p₀ :: rest).dedup :=
            List.mem_dedup.mpr (List.mem_cons_self _ _)
          rw [hdd] at hmem
          exact List.mem_singleton.mp hmem
        subst hp₀
        cases ws with
        | nil => exact absurd rfl hne
        | cons w₀ ws' =>
            obtain ⟨b, bs, hfw, _, hres⟩ := traverseOption_cons_eq hp
            have hb : p₀ = b := by
              injection hres with h1 _
            rw [← hb] at hfw
            rw [flowIndexOfWord] at hfw
            obtain ⟨fl, hget, hpfl⟩ := findIdxOpt_spec hfw
            have hw₀mem : w₀ ∈ fl.wordsIn := of_decide_eq_true hpfl
            refine ⟨fl,
              ⟨p₀, fl.wordsIn.map WordElem.text,
                (List.range fl.wordsIn.length).filter
                  (fun i => (fl.wordsIn.get? i).elim false
                    (fun w => decide (w ∈ w₀ :: ws')))⟩,
              hget, ?_, rfl, rfl, ?_, ?_, ?_⟩
            · unfold get_neighborhood_of_words
              rw [if_neg hne, hp]
              simp only [Option.some_bind]
              rw [if_neg hlen1]
              rw [hget]
            · exact List.Pairwise.sublist (List.filter_sublist _) (List.pairwise_lt_range _)
            · intro i hi
              rw [List.mem_filter] at hi
              cases hg : fl.wordsIn.get? i with
              | none => rw [hg] at hi; simp at hi
              | some w =>
                  rw [hg] at hi
                  simp only [Option.elim] at hi
                  exact ⟨w, of_decide_eq_true hi.2, rfl⟩
            · intro w hw
              obtain ⟨q, hq_mem, hfq⟩ := traverseOption_mem hp w hw
              have hq : q = p₀ := by
                have hmem : q ∈ (p₀ :: rest).dedup := List.mem_dedup.mpr hq_mem
                rw [hdd] at hmem
                exact List.mem_singleton.mp hmem
              subst hq
              rw [flowIndexOfWord] at hfq
              obtain ⟨fl', hget', hpfl'⟩ := findIdxOpt_spec hfq
              rw [hget] at hget'
              injection hget' with hget'
              subst hget'
              have hwmem : w ∈ fl.wordsIn := of_decide_eq_true hpfl'
              obtain ⟨i, hi⟩ := List.mem_iff_get?.mp hwmem
              have hilt : i < fl.wordsIn.length := by
                by_contra hcon
                push_neg at hcon
                rw [List.get?_eq_none.mpr hcon] at hi
                exact absurd hi (by simp)
              refine ⟨i, ?_, hi⟩
              rw [List.mem_filter]
              refine ⟨List.mem_range.mpr hilt, ?_⟩
              rw [hi]
              simp only [Option.elim]
              exact decide_eq_true hw

/-- Witness for C5 on the sample document: words 1 and 3 of flow 0 resolve to
that flow with the non-contiguous index list `[1, 3]` (still returned, only a
warning), while a pair of words drawn from the two different flows makes the
resolver return `None`. -/
theorem neighborhood_resolution_witness :
    traverseOption (flowIndexOfWord sampleDoc) [sampleWord 1, sampleWord 3] = some [0, 0] ∧
    get_neighborhood_of_words sampleDoc [sampleWord 1, sampleWord 3] =
      some (some ⟨0, ["t", "t", "t", "t", "t"], [1, 3]⟩) ∧
    (∃ fl nb, sampleDoc.flowsList.get? 0 = some fl ∧
      get_neighborhood_of_words sampleDoc [sampleWord 1, sampleWord 3] = some (some nb) ∧
      nb.flow = 0 ∧
      nb.words = fl.wordsIn.map WordElem.text ∧
      nb.indices.Sorted (· < ·) ∧
      (∀ i ∈ nb.indices, ∃ w ∈ [sampleWord 1, sampleWord 3], fl.wordsIn.get? i = some w) ∧
      (∀ w ∈ [sampleWord 1, sampleWord 3], ∃ i ∈ nb.indices, fl.wordsIn.get? i = some w)) ∧
    get_neighborhood_of_words sampleDoc [sampleWord 1, sampleWord 5] = some none := by
  refine ⟨by decide, by decide, ?_, ?_⟩
  · exact (neighborhood_resolution sampleDoc [sampleWord 1, sampleWord 3] [0, 0]
      (by decide) (by decide)).2 0 (by decide)
  · exact (neighborhood_resolution sampleDoc [sampleWord 1, sampleWord 5] [0, 1]
      (by decide) (by decide)).1 (by decide)

/-- C6: when the document's total word count (summed over all pages of
`get_pages`) is below `minimal_words_in_document`, `get_flows_with_annotations`
returns the empty mapping for every raw-annotations list and every description
transform: the guard fires before any annotation is matched or resolved, so
even annotations that would raise during processing are never touched. -/
theorem flow_aggregator_word_guard (pdf : AnnotatedPdf) (transform : String → String)
    (h : totalWords pdf.doc < minimal_words_in_document) :
    get_flows_with_annotations pdf transform = some [] := by
  unfold get_flows_with_annotations
  rw [if_pos h]

/-- Witness for C6: the six-word sample document is below the ten-word
minimum; with an annotation whose page index `99` is out of range (processing
it would raise an `IndexError`), the aggregator still returns the empty
mapping. -/
theorem flow_aggregator_word_guard_witness :
    totalWords sampleDoc < minimal_words_in_document ∧
    get_flows_with_annotations
      ⟨sampleDoc, [⟨99, "rectangle", ⟨0, 0, 1, 1⟩, some "risk", none, none⟩]⟩
      (fun s => s) = some [] :=
  ⟨by decide,
    flow_aggregator_word_guard
      ⟨sampleDoc, [⟨99, "rectangle", ⟨0, 0, 1, 1⟩, some "risk", none, none⟩]⟩
      (fun s => s) (by decide)⟩

end PdfUtils
